import Mathlib

/-
Verification of the measurement-and-statistics engine of a qubit device
(`pennylane/_qubit_device.py`).  The Python methods are shallowly embedded
as executable Lean functions over lists: probabilities and eigenvalues are
rationals, sample buffers are lists of boolean bit rows, wire labels are
naturals.  Definitions come first, then helper lemmas and the claim theorems.
-/

namespace PennyLane

abbrev Wire := Nat

/-- Modelled from the spec: `Device.map_wires` (Wire Mapper, spec 4.1) is defined
in the `Device` base class, outside the given sources.  It looks up each input
wire label in the Device Wire Registry and returns the device-internal index. -/
def map_wires (dev : List Wire) (wires : List Wire) : List Nat :=
  wires.map (fun w => dev.indexOf w)

/-- Modelled from the spec: `Device.order_wires` (Wire Mapper, spec 4.1) is defined
in the `Device` base class, outside the given sources.  It returns the input wires
re-ordered to match the Device Wire Registry order. -/
def order_wires (dev : List Wire) (wires : List Wire) : List Wire :=
  dev.filter (fun w => wires.contains w)

/-- Insert index `i` into an index list that is already sorted by the key
function, keeping equal keys in their original relative order. -/
def insertSorted (key : Nat → Nat) (i : Nat) : List Nat → List Nat
  | [] => [i]
  | j :: js => if key i < key j then i :: j :: js else j :: insertSorted key i js

/-- Embeds `np.argsort` on a list of naturals: the list of positions that sorts
the values ascending (stable; all uses in the source have distinct values). -/
def argsort (l : List Nat) : List Nat :=
  (List.range l.length).foldl (fun acc i => insertSorted (fun t => l.getD t 0) i acc) []

/-- Embeds `QubitDevice._permute_wires`: `ordered` is the observable wires in
device order, `mapped` their device indices, and the result re-indexes
`ordered` by `argsort(mapped)`. -/
def permute_wires (dev : List Wire) (obsWires : List Wire) : List Wire :=
  let ordered := order_wires dev obsWires
  let mapped := map_wires dev obsWires
  let permutation := argsort mapped
  permutation.map (fun i => ordered.getD i 0)

/-- The four-step algorithm exactly as the spec words it (spec 4.1,
`permute_for_observable`): order the observable wires by device order to get
`ordered`; map the observable wires to device indices to get `mapped`;
compute `perm = argsort(mapped)`; return `ordered` re-indexed by `perm`. -/
def permute_for_observable_spec (dev : List Wire) (obsWires : List Wire) : List Wire :=
  let ordered := order_wires dev obsWires
  let mapped := map_wires dev obsWires
  let perm := argsort mapped
  perm.map (fun i => ordered.getD i 0)

/-- Big-endian bit of basis index `x` at axis `a` when a length-`2 ^ n` vector is
reshaped into `n` binary axes (`numpy.reshape` convention: axis `0` is the most
significant bit, so axis `a` carries the bit of weight `2 ^ (n - 1 - a)`). -/
def axisBit (n x a : Nat) : Nat := x / 2 ^ (n - 1 - a) % 2

/-- Whether full-system basis index `i` (over `N` axes) restricts to basis index
`j` on the retained axes `kept` (listed ascending), i.e. whether `p[i]`
contributes to entry `j` after the `numpy` reshape-sum-flatten over the inactive
axes in `QubitDevice.marginal_prob`. -/
def keepsTo (N : Nat) (kept : List Nat) (i j : Nat) : Bool :=
  (List.range kept.length).all
    (fun t => axisBit N i (kept.getD t 0) == axisBit kept.length j t)

/-- Embeds the reshape/`_reduce_sum`/reshape step of `QubitDevice.marginal_prob`:
the length-`2 ^ N` vector `p` is reshaped into `N` binary axes, the axes not in
`kept` are summed out, and the result is flattened (remaining axes keep their
ascending device order). -/
def marginalCore (N : Nat) (p : List ℚ) (kept : List Nat) : List ℚ :=
  (List.range (2 ^ kept.length)).map (fun j =>
    ((List.range (2 ^ N)).map (fun i => if keepsTo N kept i j then p.getD i 0 else 0)).sum)

/-- Embeds `QubitDevice.states_to_binary` on one basis index: mask the bit of
weight `2 ^ k` for each `k` below `num_wires` (`x & (1 << k) > 0` is the same
as `x / 2 ^ k % 2`), then revert the axis so the most significant bit comes
first. -/
def states_to_binary (x n : Nat) : List Nat :=
  ((List.range n).map (fun k => x / 2 ^ k % 2)).reverse

/-- Embeds `QubitDevice.generate_basis_states`: binary rows for every basis
index below `2 ^ n`, via `states_to_binary` (the `itertools.product` branch
of the source yields the same table). -/
def generate_basis_states (n : Nat) : List (List Nat) :=
  (List.range (2 ^ n)).map (fun r => states_to_binary r n)

/-- Embeds `2 ** np.arange(k)[::-1]`, the big-endian bit weights. -/
def powers_of_two_desc (k : Nat) : List Nat :=
  ((List.range k).map (fun t => 2 ^ t)).reverse

/-- Embeds the big-endian bit-weighting `bits @ 2 ** np.arange(k)[::-1]` used
by `estimate_probability` (lines 1497-1499) to turn a bit row back into a
basis index. -/
def binary_to_index (bits : List Nat) : Nat :=
  (List.zipWith (fun a b => a * b) bits (powers_of_two_desc bits.length)).sum

/-- The little-endian bit list of `i` over `n` positions;
`states_to_binary i n` is its reversal. -/
def lowBits (i n : Nat) : List Nat :=
  (List.range n).map (fun k => i / 2 ^ k % 2)

/-- Value of a little-endian bit list. -/
def valLE : List Nat → Nat
  | [] => 0
  | b :: bs => b + 2 * valLE bs

/-- Embeds `QubitDevice.marginal_prob` (the `wires is not None` branch): map the
requested wires to device indices, sum out the inactive axes, then permute the
entries by the basis-state permutation built from `argsort(argsort(device_wires))`. -/
def marginal_prob (dev : List Wire) (p : List ℚ) (wires : List Wire) : List ℚ :=
  let device_wires := map_wires dev wires
  let N := dev.length
  let kept := (List.range N).filter (fun a => device_wires.contains a)
  let m := marginalCore N p kept
  let sigma := argsort (argsort device_wires)
  let basis := (generate_basis_states device_wires.length).map
    (fun row => sigma.map (fun c => row.getD c 0))
  let perm := basis.map
    (fun row => (List.zipWith (fun a b => a * b) row (powers_of_two_desc device_wires.length)).sum)
  perm.map (fun q => m.getD q 0)

/-- Probability of the event that each wire in `constraints` (pairs of a device
axis and a bit) takes the given value, under the full-system distribution `p`
over `N` device wires. -/
def wireEventProb (N : Nat) (p : List ℚ) (constraints : List (Nat × Nat)) : ℚ :=
  ((List.range (2 ^ N)).map
    (fun i => if constraints.all (fun c => axisBit N i c.1 == c.2) then p.getD i 0 else 0)).sum

/-- The deterministic full-system distribution concentrated on basis state
`|100⟩` (wire0 = 1, wire1 = 0, wire2 = 0) of a three-wire device. -/
def c4Prob : List ℚ := [0, 0, 0, 0, 1, 0, 0, 0]

/-- A factor of a tensor-product observable: one single-qubit operator given by
its wire and its two eigenvalues. -/
structure Factor where
  wire : Wire
  eig0 : ℚ
  eig1 : ℚ

/-- Kronecker product of two eigenvalue lists. -/
def kron (a b : List ℚ) : List ℚ := (a.map (fun x => b.map (fun y => x * y))).flatten

/-- Modelled from the spec: `Tensor.eigvals` lives outside the given sources;
per spec 4.1/4.3 a tensor-product eigenvalue vector is ordered by the factor
order as written, i.e. it is the Kronecker product of the factor eigenvalue
lists in that order. -/
def tensor_eigvals (fs : List Factor) : List ℚ :=
  fs.foldl (fun acc f => kron acc [f.eig0, f.eig1]) [1]

/-- Modelled from the spec: `analytic_probability` is device-supplied (abstract
in `QubitDevice`); per spec 4.5 it returns the device full-system probability
vector marginalized over the requested wires, which is what the in-source
`marginal_prob` computes. -/
def analytic_probability (dev : List Wire) (fullProb : List ℚ) (wires : List Wire) : List ℚ :=
  marginal_prob dev fullProb wires

/-- Embeds the analytic (`shots is None`) branch of `QubitDevice.expval` for a
tensor observable: permute the observable wires with `_permute_wires`, fetch
the marginal probability vector for the permuted wires, and dot it with the
observable eigenvalues. -/
def expval_analytic (dev : List Wire) (fullProb : List ℚ) (fs : List Factor) : ℚ :=
  let obsWires := fs.map (fun f => f.wire)
  let permuted := permute_wires dev obsWires
  let prob := analytic_probability dev fullProb permuted
  (List.zipWith (fun a b => a * b) prob (tensor_eigvals fs)).sum

/-- Big-endian value of a bit row (embeds `samples @ 2 ** np.arange(k)[::-1]`). -/
def bigEndianVal (bits : List Bool) : Nat :=
  bits.foldl (fun a b => 2 * a + (if b then 1 else 0)) 0

/-- Column selection `row[device_wires]` with out-of-range columns reading 0. -/
def selectCols (cols : List Nat) (row : List Bool) : List Bool :=
  cols.map (fun c => row.getD c false)

/-- Embeds the index derivation of `QubitDevice.estimate_probability`: select
the requested wire columns of each sample row and read them as a big-endian
basis index. -/
def sampleIndices (samples : List (List Bool)) (cols : List Nat) : List Nat :=
  samples.map (fun r => bigEndianVal (selectCols cols r))

/-- Embeds the `shot_range` slicing `samples[slice(*shot_range)]`. -/
def shotSlice (samples : List (List Bool)) : Option (Nat × Nat) → List (List Bool)
  | none => samples
  | some (s1, s2) => (samples.drop s1).take (s2 - s1)

/-- Embeds `QubitDevice._count_unbinned_samples` (unbatched branch): entry `j`
is the relative count of basis index `j` among `indices` (unobserved indices
keep the `np.zeros` value `0`, since their count is `0`). -/
def count_unbinned_samples (indices : List Nat) (dim : Nat) : List ℚ :=
  (List.range dim).map (fun j => (indices.count j : ℚ) / (indices.length : ℚ))

/-- The reshape of `indices` into `numBins` contiguous bins of `size` entries. -/
def chunksOf (size numBins : Nat) (l : List Nat) : List (List Nat) :=
  (List.range numBins).map (fun b => (l.drop (b * size)).take size)

/-- Embeds `QubitDevice._count_binned_samples` (unbatched branch).  The source
fills an array of shape `(dim, num_bins)` column by column; we represent the
same data transposed, as the list of the `num_bins` per-bin probability
vectors (the column of bin `b` is entry `b` here). -/
def count_binned_samples (indices : List Nat) (dim binSize : Nat) : List (List ℚ) :=
  let numBins := indices.length / binSize
  (chunksOf binSize numBins indices).map
    (fun bin => (List.range dim).map (fun j => (bin.count j : ℚ) / (binSize : ℚ)))

/-- Embeds `wires = wires or self.wires`: both `None` and an empty wire
collection are falsy in Python, so both are replaced by all device wires. -/
def wiresOrDefault (dev : List Wire) : Option (List Wire) → List Wire
  | none => dev
  | some l => if l.isEmpty then dev else l

/-- Embeds `QubitDevice.estimate_probability` with `bin_size=None` (unbatched). -/
def estimate_probability (dev : List Wire) (samples : List (List Bool))
    (wires : Option (List Wire)) (shotRange : Option (Nat × Nat)) : List ℚ :=
  let w := wiresOrDefault dev wires
  let device_wires := map_wires dev w
  let sel := shotSlice samples shotRange
  let indices := sampleIndices sel device_wires
  count_unbinned_samples indices (2 ^ device_wires.length)

/-- Embeds `QubitDevice.estimate_probability` with a `bin_size` (unbatched). -/
def estimate_probability_binned (dev : List Wire) (samples : List (List Bool))
    (wires : Option (List Wire)) (shotRange : Option (Nat × Nat)) (binSize : Nat) :
    List (List ℚ) :=
  let w := wiresOrDefault dev wires
  let device_wires := map_wires dev w
  let sel := shotSlice samples shotRange
  let indices := sampleIndices sel device_wires
  count_binned_samples indices (2 ^ device_wires.length) binSize

/-- Embeds `QubitDevice.probability`: default the wires, then dispatch to the
device-supplied analytic probability (`shots is None`) or to the sample-based
estimate.  The analytic routine is a parameter, as in the source it is
device-specific. -/
def probability (dev : List Wire) (shots : Option Nat) (analyticFn : List Wire → List ℚ)
    (samples : List (List Bool)) (wires : Option (List Wire))
    (shotRange : Option (Nat × Nat)) : List ℚ :=
  let w := wiresOrDefault dev wires
  match shots with
  | none => analyticFn w
  | some _ => estimate_probability dev samples (some w) shotRange

/-- A sample row as the 0/1 integer row whose digits the source joins into a
dictionary key string. -/
def natRow (s : List Bool) : List Nat := s.map (fun b => if b then 1 else 0)

/-- A `generate_basis_states` row as a boolean bit row (same key space as the
joined digit strings of the source). -/
def boolRow (row : List Nat) : List Bool := row.map (fun b => b == 1)

/-- The keys pre-populated by `_samples_to_counts` under `all_outcomes=True`:
every basis row of `generate_basis_states num_wires`. -/
def allBitstrings (n : Nat) : List (List Bool) :=
  (generate_basis_states n).map boolRow

/-- Dictionary assignment `outcome_dict[s] = c` on an association list: update
the value when the key exists, append the pair otherwise. -/
def updateAssoc (d : List (List Bool × Nat)) (k : List Bool) (v : Nat) :
    List (List Bool × Nat) :=
  if d.any (fun kv => kv.1 == k) then
    d.map (fun kv => if kv.1 == k then (kv.1, v) else kv)
  else d ++ [(k, v)]

/-- Embeds `QubitDevice._samples_to_counts` with `all_outcomes=True` and no
observable: pre-populate every possible basis row with count 0, then write the
total count of each distinct observed row (`np.unique` with `return_counts`). -/
def samples_to_counts (samples : List (List Bool)) (n : Nat) : List (List Bool × Nat) :=
  let init := (allBitstrings n).map (fun k => (k, 0))
  samples.dedup.foldl (fun d s => updateAssoc d s (samples.count s)) init

/-- The measurement kinds dispatched by the Statistics Engine. -/
inductive MKind
  | expectation
  | variance
  | sampleM
  | countsM
  | probabilityM
  | stateM
  | vnEntropy
  | mutualInfo
  | classicalShadow
  | shadowExpval
deriving DecidableEq

/-- The device configuration consulted by the statistics dispatch checks. -/
structure DeviceCfg where
  numWires : Nat
  wireLabels : List Nat
  shots : Option Nat
  shotVector : Option (List (Nat × Nat))
deriving DecidableEq

/-- One dispatch step of `QubitDevice._statistics_new` for a measurement of the
given kind inside a list of `total` measurements: `some msg` is the raised
error, `none` means the measurement is evaluated.  The shot-vector checks for
`VnEntropyMP`/`MutualInfoMP` are commented out in this method, so they are
absent here; evaluation of the remaining kinds is abstracted as success. -/
def statisticsNewCheck (cfg : DeviceCfg) (total : Nat) : MKind → Option String
  | MKind.stateM =>
      if total > 1 then
        some "The state or density matrix cannot be returned in combination with other return types"
      else none
  | MKind.vnEntropy =>
      if cfg.wireLabels ≠ List.range cfg.numWires then
        some "Returning the Von Neumann entropy is not supported when using custom wire labels"
      else none
  | MKind.mutualInfo =>
      if cfg.wireLabels ≠ List.range cfg.numWires then
        some "Returning the mutual information is not supported when using custom wire labels"
      else none
  | MKind.classicalShadow =>
      if total > 1 then
        some "Classical shadows cannot be returned in combination with other return types"
      else none
  | MKind.shadowExpval =>
      if total > 1 then
        some "Classical shadows cannot be returned in combination with other return types"
      else none
  | _ => none

/-- One dispatch step of the legacy `QubitDevice.statistics`: the same
combination and wire-label checks, plus the shot-vector checks for
`VnEntropy`/`MutualInfo` that the legacy path still performs. -/
def statisticsLegacyCheck (cfg : DeviceCfg) (total : Nat) : MKind → Option String
  | MKind.stateM =>
      if total > 1 then
        some "The state or density matrix cannot be returned in combination with other return types"
      else none
  | MKind.vnEntropy =>
      if cfg.wireLabels ≠ List.range cfg.numWires then
        some "Returning the Von Neumann entropy is not supported when using custom wire labels"
      else if cfg.shotVector ≠ none then
        some "Returning the Von Neumann entropy is not supported with shot vectors."
      else none
  | MKind.mutualInfo =>
      if cfg.wireLabels ≠ List.range cfg.numWires then
        some "Returning the mutual information is not supported when using custom wire labels"
      else if cfg.shotVector ≠ none then
        some "Returning the mutual information is not supported with shot vectors."
      else none
  | MKind.classicalShadow =>
      if total > 1 then
        some "Classical shadows cannot be returned in combination with other return types"
      else none
  | MKind.shadowExpval =>
      if total > 1 then
        some "Classical shadows cannot be returned in combination with other return types"
      else none
  | _ => none

/-- The first error raised while the statistics loop walks the measurement
list in order. -/
def firstError (check : MKind → Option String) : List MKind → Option String
  | [] => none
  | m :: ms =>
    match check m with
    | some e => some e
    | none => firstError check ms

/-- Embeds the iteration of `QubitDevice._statistics_new` over the measurement
list: the outcome is the first error raised by a dispatch check (evaluation
work of the non-failing kinds is abstracted away). -/
def statisticsNew (cfg : DeviceCfg) (ms : List MKind) : Option String :=
  firstError (statisticsNewCheck cfg ms.length) ms

/-- Embeds the iteration of the legacy `QubitDevice.statistics` over the
measurement list. -/
def statisticsLegacy (cfg : DeviceCfg) (ms : List MKind) : Option String :=
  firstError (statisticsLegacyCheck cfg ms.length) ms

/-- Device-level work performed by an execution before statistics. -/
inductive DeviceAction
  | applyOps
  | generateSamples
deriving DecidableEq

/-- Embeds the sequencing of `QubitDevice._execute_new`: the circuit operations
are applied first (`self.apply`), computational-basis samples are generated
when shots are finite, and only afterwards are the statistics — with their
measurement-combination checks — computed.  Returns the device actions that
were performed before/independently of any statistics error, together with the
statistics outcome. -/
def executeNew (cfg : DeviceCfg) (ms : List MKind) : List DeviceAction × Option String :=
  let acts := [DeviceAction.applyOps] ++
    (match cfg.shots with
      | some _ => [DeviceAction.generateSamples]
      | none => [])
  (acts, statisticsNew cfg ms)

/-- Modelled from the source and spec: the seeded numpy generator
`np.random.RandomState(seed).randint(0, 3, size=(T, n))` of
`QubitDevice.classical_shadow` is a deterministic function of the seed alone;
it is modelled as an arbitrary deterministic raw stream (seed and draw
position to value) reduced into the range `{0, 1, 2}`. -/
def shadowRecipes (randValue : Nat → Nat → Nat) (seed T n : Nat) : List (List Nat) :=
  (List.range T).map (fun t => (List.range n).map (fun q => randValue seed (t * n + q) % 3))

/-- Embeds `QubitDevice.classical_shadow`: draw the Pauli-basis recipes from the
seeded generator, then for each snapshot run the circuit once with the
rotations chosen by that snapshot recipe (`runSnapshot` abstracts
`apply` plus `generate_samples()[0]`, which depend on the circuit and the
device state) and keep the mapped wire columns of the single-shot outcome.
Returns `(bits, recipes)`. -/
def classical_shadow (randValue : Nat → Nat → Nat) (seed T : Nat)
    (dev : List Wire) (wires : List Wire)
    (runSnapshot : List (Wire × Nat) → List Bool) :
    List (List Bool) × List (List Nat) :=
  let recipes := shadowRecipes randValue seed T wires.length
  let mapped := map_wires dev wires
  let outcomes := recipes.map (fun recipeRow =>
    selectCols mapped (runSnapshot (wires.zip recipeRow)))
  (outcomes, recipes)

/- ------------------------------------------------------------------ -/
/- Helper lemmas                                                      -/
/- ------------------------------------------------------------------ -/

theorem firstError_isSome_of_mem (check : MKind → Option String) (ms : List MKind)
    (m : MKind) (hm : m ∈ ms) (hc : (check m).isSome = true) :
    (firstError check ms).isSome = true := by
  induction ms with
  | nil => cases hm
  | cons x xs ih =>
    cases hx : check x with
    | some e => simp [firstError, hx]
    | none =>
      rcases List.mem_cons.mp hm with rfl | hmem2
      · rw [hx] at hc
        cases hc
      · simpa [firstError, hx] using ih hmem2

theorem list_sum_map_add {α : Type} (l : List α) (f g : α → Nat) :
    (l.map (fun x => f x + g x)).sum = (l.map f).sum + (l.map g).sum := by
  induction l with
  | nil => simp
  | cons x xs ih => simp [ih]; omega

theorem sum_indicator (dim x : Nat) (hx : x < dim) :
    ((List.range dim).map (fun j => if x = j then (1 : ℕ) else 0)).sum = 1 := by
  induction dim with
  | zero => omega
  | succ d ih =>
    rw [List.range_succ, List.map_append, List.sum_append]
    rcases Nat.lt_succ_iff_lt_or_eq.mp hx with h | h
    · have hne : x ≠ d := Nat.ne_of_lt h
      simp [hne, ih h]
    · subst h
      have hz : ((List.range x).map (fun j => if x = j then (1 : ℕ) else 0)).sum = 0 := by
        apply List.sum_eq_zero
        intro y hy
        rcases List.mem_map.mp hy with ⟨j, hj, rfl⟩
        have hj2 : j < x := List.mem_range.mp hj
        simp [Nat.ne_of_gt hj2]
      simp [hz]

theorem sum_counts_eq_length (dim : Nat) (indices : List Nat)
    (h : ∀ i ∈ indices, i < dim) :
    ((List.range dim).map (fun j => indices.count j)).sum = indices.length := by
  induction indices with
  | nil => simp
  | cons x rest ih =>
    have hx : x < dim := h x (List.mem_cons_self x rest)
    have hr : ∀ i ∈ rest, i < dim := fun i hi => h i (List.mem_cons_of_mem x hi)
    calc ((List.range dim).map (fun j => (x :: rest).count j)).sum
        = ((List.range dim).map (fun j => rest.count j + (if x = j then 1 else 0))).sum := by
          simp only [List.count_cons, beq_iff_eq]
      _ = ((List.range dim).map (fun j => rest.count j)).sum +
            ((List.range dim).map (fun j => if x = j then 1 else 0)).sum :=
          list_sum_map_add _ _ _
      _ = rest.length + 1 := by rw [ih hr, sum_indicator dim x hx]
      _ = (x :: rest).length := by simp

theorem sum_map_div (l : List Nat) (f : Nat → ℚ) (d : ℚ) :
    (l.map (fun x => f x / d)).sum = (l.map f).sum / d := by
  induction l with
  | nil => simp
  | cons x xs ih => simp [ih, add_div]

theorem cast_sum_counts (dim : Nat) (f : Nat → ℕ) :
    ((List.range dim).map (fun j => ((f j : ℕ) : ℚ))).sum =
      ((((List.range dim).map f).sum : ℕ) : ℚ) := by
  induction dim with
  | zero => simp
  | succ d ih => rw [List.range_succ]; simp [ih]

theorem getD_map_range (n j : Nat) (f : Nat → ℚ) (h : j < n) :
    ((List.range n).map f).getD j 0 = f j := by
  rw [List.getD_eq_getElem?_getD, List.getElem?_map, List.getElem?_range h]
  rfl

theorem bigEndianVal_foldl_lt (bits : List Bool) :
    ∀ a : Nat, bits.foldl (fun a b => 2 * a + (if b then 1 else 0)) a <
      (a + 1) * 2 ^ bits.length := by
  induction bits with
  | nil => intro a; simp
  | cons b bs ih =>
    intro a
    have h := ih (2 * a + (if b then 1 else 0))
    have hb : (if b then (1 : ℕ) else 0) ≤ 1 := by cases b <;> simp
    calc (b :: bs).foldl (fun a b => 2 * a + (if b then 1 else 0)) a
        = bs.foldl (fun a b => 2 * a + (if b then 1 else 0)) (2 * a + (if b then 1 else 0)) := by
          simp [List.foldl_cons]
      _ < (2 * a + (if b then 1 else 0) + 1) * 2 ^ bs.length := h
      _ ≤ (a + 1) * 2 ^ (b :: bs).length := by
          simp only [List.length_cons, pow_succ]
          nlinarith [pow_pos (show (0:ℕ) < 2 by norm_num) bs.length]

theorem bigEndianVal_lt (bits : List Bool) : bigEndianVal bits < 2 ^ bits.length := by
  have := bigEndianVal_foldl_lt bits 0
  simpa [bigEndianVal] using this

theorem sampleIndices_lt (samples : List (List Bool)) (cols : List Nat) :
    ∀ i ∈ sampleIndices samples cols, i < 2 ^ cols.length := by
  intro i hi
  rcases List.mem_map.mp hi with ⟨row, _, rfl⟩
  have h := bigEndianVal_lt (selectCols cols row)
  simpa [selectCols] using h

/-- The sum of an unbinned relative-count vector over nonempty indices is 1. -/
theorem count_unbinned_samples_sum (indices : List Nat) (dim : Nat)
    (hne : indices ≠ []) (hlt : ∀ i ∈ indices, i < dim) :
    (count_unbinned_samples indices dim).sum = 1 := by
  have hlen : (0 : ℚ) < (indices.length : ℚ) := by
    have : 0 < indices.length := List.length_pos.mpr hne
    exact_mod_cast this
  calc (count_unbinned_samples indices dim).sum
      = ((List.range dim).map (fun j => ((indices.count j : ℕ) : ℚ))).sum /
          (indices.length : ℚ) := by
        unfold count_unbinned_samples
        exact sum_map_div _ _ _
    _ = ((((List.range dim).map (fun j => indices.count j)).sum : ℕ) : ℚ) /
          (indices.length : ℚ) := by rw [cast_sum_counts]
    _ = ((indices.length : ℕ) : ℚ) / (indices.length : ℚ) := by
        rw [sum_counts_eq_length dim indices hlt]
    _ = 1 := div_self (ne_of_gt hlen)

/-- Every per-bin relative-count vector sums to 1 when the bin size divides the
number of indices. -/
theorem count_binned_samples_sum (indices : List Nat) (dim binSize : Nat)
    (hpos : 0 < binSize) (hdiv : binSize ∣ indices.length)
    (hlt : ∀ i ∈ indices, i < dim) :
    ∀ bin ∈ count_binned_samples indices dim binSize, bin.sum = 1 := by
  intro bin hbin
  unfold count_binned_samples chunksOf at hbin
  rcases List.mem_map.mp hbin with ⟨chunk, hchunk, rfl⟩
  rcases List.mem_map.mp hchunk with ⟨b, hb, rfl⟩
  have hbn : b < indices.length / binSize := List.mem_range.mp hb
  have hlen : ((indices.drop (b * binSize)).take binSize).length = binSize := by
    have h1 : b * binSize + binSize ≤ indices.length := by
      have h2 : (b + 1) * binSize ≤ indices.length := by
        calc (b + 1) * binSize ≤ (indices.length / binSize) * binSize :=
              Nat.mul_le_mul_right binSize (Nat.succ_le_of_lt hbn)
          _ = indices.length := Nat.div_mul_cancel hdiv
      simpa [Nat.succ_mul] using h2
    simp only [List.length_take, List.length_drop]
    omega
  have hsub : ∀ i ∈ (indices.drop (b * binSize)).take binSize, i < dim := by
    intro i hi
    exact hlt i (List.drop_subset _ _ (List.take_subset _ _ hi))
  calc ((List.range dim).map
          (fun j => (((indices.drop (b * binSize)).take binSize).count j : ℚ) /
            (binSize : ℚ))).sum
      = ((List.range dim).map
          (fun j => ((((indices.drop (b * binSize)).take binSize).count j : ℕ) : ℚ))).sum /
            (binSize : ℚ) := sum_map_div _ _ _
    _ = ((((List.range dim).map
          (fun j => ((indices.drop (b * binSize)).take binSize).count j)).sum : ℕ) : ℚ) /
            (binSize : ℚ) := by rw [cast_sum_counts]
    _ = ((((indices.drop (b * binSize)).take binSize).length : ℕ) : ℚ) / (binSize : ℚ) := by
        rw [sum_counts_eq_length dim _ hsub]
    _ = 1 := by
        rw [hlen]
        exact div_self (by exact_mod_cast Nat.pos_iff_ne_zero.mp hpos)

theorem valLE_append (l : List Nat) (b : Nat) :
    valLE (l ++ [b]) = valLE l + b * 2 ^ l.length := by
  induction l with
  | nil => simp [valLE]
  | cons x xs ih =>
    show valLE (x :: (xs ++ [b])) = valLE (x :: xs) + b * 2 ^ (x :: xs).length
    simp only [valLE, ih, List.length_cons, pow_succ]
    ring

theorem lowBits_succ (i n : Nat) :
    lowBits i (n + 1) = lowBits i n ++ [i / 2 ^ n % 2] := by
  unfold lowBits
  rw [List.range_succ, List.map_append]
  rfl

theorem valLE_lowBits (n : Nat) : ∀ i, valLE (lowBits i n) = i % 2 ^ n := by
  induction n with
  | zero => intro i; simp [lowBits, valLE, Nat.mod_one]
  | succ d ih =>
    intro i
    have hlen : (lowBits i d).length = d := by simp [lowBits]
    rw [lowBits_succ, valLE_append, ih i, hlen, Nat.mod_pow_succ]
    ring

theorem lowBits_cons (i n : Nat) :
    lowBits i (n + 1) = (i % 2) :: lowBits (i / 2) n := by
  unfold lowBits
  rw [List.range_succ_eq_map, List.map_cons, List.map_map]
  congr 1
  · simp
  · apply List.map_congr_left
    intro k _
    show i / 2 ^ (k + 1) % 2 = i / 2 / 2 ^ k % 2
    rw [Nat.div_div_eq_div_mul, pow_succ, mul_comm (2 ^ k) 2]

theorem lowBits_valLE (l : List Nat) (h : ∀ b ∈ l, b < 2) :
    lowBits (valLE l) l.length = l := by
  induction l with
  | nil => rfl
  | cons b bs ih =>
    have hb : b < 2 := h b (List.mem_cons_self b bs)
    have hbs : ∀ x ∈ bs, x < 2 := fun x hx => h x (List.mem_cons_of_mem b hx)
    show lowBits (valLE (b :: bs)) (bs.length + 1) = b :: bs
    rw [lowBits_cons]
    have h1 : valLE (b :: bs) % 2 = b := by
      show (b + 2 * valLE bs) % 2 = b
      omega
    have h2 : valLE (b :: bs) / 2 = valLE bs := by
      show (b + 2 * valLE bs) / 2 = valLE bs
      omega
    rw [h1, h2, ih hbs]

theorem valLE_lt (l : List Nat) (h : ∀ b ∈ l, b < 2) : valLE l < 2 ^ l.length := by
  induction l with
  | nil => simp [valLE]
  | cons b bs ih =>
    have hb : b < 2 := h b (List.mem_cons_self b bs)
    have hbs : ∀ x ∈ bs, x < 2 := fun x hx => h x (List.mem_cons_of_mem b hx)
    have hv := ih hbs
    show b + 2 * valLE bs < 2 ^ (bs.length + 1)
    rw [pow_succ]
    omega

theorem zipWith_mul_double_sum (bs : List Nat) (g : Nat → Nat) :
    ∀ xs : List Nat,
      (List.zipWith (fun a k => a * (g k * 2)) bs xs).sum =
        2 * (List.zipWith (fun a k => a * g k) bs xs).sum := by
  induction bs with
  | nil => intro xs; simp
  | cons b bt ih =>
    intro xs
    cases xs with
    | nil => simp
    | cons x xt =>
      simp only [List.zipWith_cons_cons, List.sum_cons, ih xt]
      ring

theorem zipWith_pows_sum (l : List Nat) :
    (List.zipWith (fun a k => a * 2 ^ k) l (List.range l.length)).sum = valLE l := by
  induction l with
  | nil => simp [valLE]
  | cons b bs ih =>
    show (List.zipWith (fun a k => a * 2 ^ k) (b :: bs) (List.range (bs.length + 1))).sum =
      valLE (b :: bs)
    rw [List.range_succ_eq_map]
    simp only [List.zipWith_cons_cons, List.sum_cons, pow_zero, mul_one,
      List.zipWith_map_right, pow_succ]
    rw [zipWith_mul_double_sum bs (fun k => 2 ^ k) (List.range bs.length), ih]
    simp [valLE]

theorem binary_to_index_reverse (l : List Nat) :
    binary_to_index l.reverse = valLE l := by
  unfold binary_to_index powers_of_two_desc
  rw [List.length_reverse]
  have hlen : l.length = ((List.range l.length).map (fun t => 2 ^ t)).length := by simp
  rw [← List.reverse_zipWith hlen, List.sum_reverse, List.zipWith_map_right]
  exact zipWith_pows_sum l

/-- Converting a basis index to its big-endian bit row and weighting it back
yields the index modulo `2 ^ n`. -/
theorem binary_to_index_states_to_binary (i n : Nat) :
    binary_to_index (states_to_binary i n) = i % 2 ^ n := by
  have h : states_to_binary i n = (lowBits i n).reverse := rfl
  rw [h, binary_to_index_reverse, valLE_lowBits]

theorem states_to_binary_entries_lt (i n : Nat) :
    ∀ b ∈ states_to_binary i n, b < 2 := by
  intro b hb
  rcases List.mem_map.mp (List.mem_reverse.mp hb) with ⟨k, _, rfl⟩
  exact Nat.mod_lt _ (by norm_num)

theorem natRow_entries_lt (s : List Bool) : ∀ b ∈ natRow s, b < 2 := by
  intro b hb
  rcases List.mem_map.mp hb with ⟨x, _, rfl⟩
  cases x <;> norm_num

theorem boolRow_natRow (s : List Bool) : boolRow (natRow s) = s := by
  unfold boolRow natRow
  rw [List.map_map]
  have hcomp : ((fun b : Nat => b == 1) ∘ (fun b : Bool => if b then (1 : Nat) else 0)) = id := by
    funext x
    cases x <;> rfl
  rw [hcomp, List.map_id]

theorem natRow_boolRow (row : List Nat) (h : ∀ b ∈ row, b < 2) :
    natRow (boolRow row) = row := by
  unfold natRow boolRow
  rw [List.map_map]
  conv_rhs => rw [← List.map_id row]
  apply List.map_congr_left
  intro b hb
  have hb2 : b = 0 ∨ b = 1 := by
    have := h b hb
    omega
  rcases hb2 with rfl | rfl <;> rfl

theorem mem_allBitstrings (s : List Bool) (n : Nat) (h : s.length = n) :
    s ∈ allBitstrings n := by
  have hl2 : ∀ b ∈ (natRow s).reverse, b < 2 := by
    intro b hb
    exact natRow_entries_lt s b (List.mem_reverse.mp hb)
  have hlen : ((natRow s).reverse).length = n := by simp [natRow, h]
  have hr : valLE ((natRow s).reverse) < 2 ^ n := by
    have := valLE_lt ((natRow s).reverse) hl2
    rwa [hlen] at this
  have hlow : lowBits (valLE ((natRow s).reverse)) n = (natRow s).reverse := by
    have := lowBits_valLE ((natRow s).reverse) hl2
    rwa [hlen] at this
  have hs2b : states_to_binary (valLE ((natRow s).reverse)) n = natRow s := by
    show (lowBits (valLE ((natRow s).reverse)) n).reverse = natRow s
    rw [hlow, List.reverse_reverse]
  apply List.mem_map.mpr
  refine ⟨states_to_binary (valLE ((natRow s).reverse)) n, ?_, by rw [hs2b, boolRow_natRow]⟩
  exact List.mem_map.mpr ⟨valLE ((natRow s).reverse), List.mem_range.mpr hr, rfl⟩

theorem allBitstrings_length (n : Nat) : (allBitstrings n).length = 2 ^ n := by
  simp [allBitstrings, generate_basis_states]

theorem allBitstrings_row_length (n : Nat) : ∀ k ∈ allBitstrings n, k.length = n := by
  intro k hk
  rcases List.mem_map.mp hk with ⟨row, hrow, rfl⟩
  rcases List.mem_map.mp hrow with ⟨r, _, rfl⟩
  simp [boolRow, states_to_binary]

theorem allBitstrings_nodup (n : Nat) : (allBitstrings n).Nodup := by
  unfold allBitstrings generate_basis_states
  rw [List.map_map]
  apply List.Nodup.map_on ?_ (List.nodup_range _)
  intro x hx y hy hxy
  have hx2 : x < 2 ^ n := List.mem_range.mp hx
  have hy2 : y < 2 ^ n := List.mem_range.mp hy
  simp only [Function.comp] at hxy
  have h1 : states_to_binary x n = states_to_binary y n := by
    have h2 := congrArg natRow hxy
    rwa [natRow_boolRow _ (states_to_binary_entries_lt x n),
      natRow_boolRow _ (states_to_binary_entries_lt y n)] at h2
  have h3 := congrArg binary_to_index h1
  rwa [binary_to_index_states_to_binary, binary_to_index_states_to_binary,
    Nat.mod_eq_of_lt hx2, Nat.mod_eq_of_lt hy2] at h3

theorem sum_indicator_mem (K : List (List Bool)) (s : List Bool) (hs : s ∈ K)
    (hnd : K.Nodup) :
    (K.map (fun k => if s = k then (1 : ℕ) else 0)).sum = 1 := by
  induction K with
  | nil => cases hs
  | cons x xs ih =>
    rcases List.nodup_cons.mp hnd with ⟨hx, hxs⟩
    rcases List.mem_cons.mp hs with rfl | hmem
    · have hz : (xs.map (fun k => if s = k then (1 : ℕ) else 0)).sum = 0 := by
        apply List.sum_eq_zero
        intro y hy
        rcases List.mem_map.mp hy with ⟨k, hk, rfl⟩
        have hne : s ≠ k := fun he => hx (by rw [he]; exact hk)
        simp [hne]
      simp [hz]
    · have hxs2 : s ≠ x := fun he => hx (by rw [← he]; exact hmem)
      simp [hxs2, ih hmem hxs]

theorem sum_counts_over_keys (K : List (List Bool)) (samples : List (List Bool))
    (hmem : ∀ s ∈ samples, s ∈ K) (hnd : K.Nodup) :
    (K.map (fun k => samples.count k)).sum = samples.length := by
  induction samples with
  | nil => simp
  | cons s rest ih =>
    have hs : s ∈ K := hmem s (List.mem_cons_self s rest)
    have hr : ∀ x ∈ rest, x ∈ K := fun x hx => hmem x (List.mem_cons_of_mem s hx)
    calc (K.map (fun k => (s :: rest).count k)).sum
        = (K.map (fun k => rest.count k + if s = k then 1 else 0)).sum := by
          simp only [List.count_cons, beq_iff_eq]
      _ = (K.map (fun k => rest.count k)).sum +
            (K.map (fun k => if s = k then 1 else 0)).sum := list_sum_map_add _ _ _
      _ = rest.length + 1 := by rw [ih hr, sum_indicator_mem K s hs hnd]
      _ = (s :: rest).length := by simp

theorem updateAssoc_map (K : List (List Bool)) (g : List Bool → Nat) (s : List Bool)
    (v : Nat) (hs : s ∈ K) :
    updateAssoc (K.map (fun k => (k, g k))) s v =
      K.map (fun k => (k, if k = s then v else g k)) := by
  unfold updateAssoc
  have hany : ((K.map (fun k => (k, g k))).any (fun kv => kv.1 == s)) = true := by
    apply List.any_eq_true.mpr
    exact ⟨(s, g s), List.mem_map.mpr ⟨s, hs, rfl⟩, by simp⟩
  rw [if_pos hany, List.map_map]
  apply List.map_congr_left
  intro k _
  by_cases hk : k = s
  · subst hk
    simp
  · simp [hk]

theorem foldl_updateAssoc (K : List (List Bool)) (cnt : List Bool → Nat)
    (us : List (List Bool)) :
    ∀ g : List Bool → Nat, (∀ s ∈ us, s ∈ K) →
      us.foldl (fun d s => updateAssoc d s (cnt s)) (K.map (fun k => (k, g k))) =
        K.map (fun k => (k, if k ∈ us then cnt k else g k)) := by
  induction us with
  | nil =>
    intro g _
    rw [List.foldl_nil]
    apply List.map_congr_left
    intro k _
    simp
  | cons u ut ih =>
    intro g hus
    have hu : u ∈ K := hus u (List.mem_cons_self u ut)
    rw [List.foldl_cons, updateAssoc_map K g u (cnt u) hu,
      ih (fun k => if k = u then cnt u else g k) (fun s hs => hus s (List.mem_cons_of_mem u hs))]
    apply List.map_congr_left
    intro k _
    by_cases h1 : k ∈ ut
    · simp [h1, List.mem_cons]
    · by_cases h2 : k = u
      · subst h2
        simp [h1]
      · simp [h1, h2, List.mem_cons]

theorem samples_to_counts_eq (samples : List (List Bool)) (n : Nat)
    (hrow : ∀ s ∈ samples, s.length = n) :
    samples_to_counts samples n = (allBitstrings n).map (fun k => (k, samples.count k)) := by
  have hmem : ∀ s ∈ samples.dedup, s ∈ allBitstrings n := by
    intro s hs
    exact mem_allBitstrings s n (hrow s (List.mem_dedup.mp hs))
  have h := foldl_updateAssoc (allBitstrings n) (fun s => samples.count s) samples.dedup
    (fun _ => 0) hmem
  unfold samples_to_counts
  rw [h]
  apply List.map_congr_left
  intro k _
  by_cases hk : k ∈ samples.dedup
  · simp [hk]
  · have hz : samples.count k = 0 :=
      List.count_eq_zero.mpr (fun hc => hk (List.mem_dedup.mpr hc))
    simp [hk, hz]

/- ------------------------------------------------------------------ -/
/- Claim theorems                                                     -/
/- ------------------------------------------------------------------ -/

/-- C1: for every observable whose wires are a subset of the Device Wire
Registry, `_permute_wires` returns exactly the wire list produced by the
spec's four-step algorithm; on the docstring example (registry `[0,1,2]`,
observable wires `[2,0,1]`) the result is `[1,2,0]`. -/
theorem permute_wires_matches_spec (dev obsWires : List Wire)
    (hsub : ∀ w ∈ obsWires, w ∈ dev) :
    permute_wires dev obsWires = permute_for_observable_spec dev obsWires ∧
      permute_wires [0, 1, 2] [2, 0, 1] = [1, 2, 0] := by
  exact ⟨rfl, by decide⟩

/-- Witness for C1 at the docstring input. -/
theorem permute_wires_matches_spec_witness :
    permute_wires [0, 1, 2] [2, 0, 1] = permute_for_observable_spec [0, 1, 2] [2, 0, 1] ∧
      permute_wires [0, 1, 2] [2, 0, 1] = [1, 2, 0] :=
  permute_wires_matches_spec [0, 1, 2] [2, 0, 1] (by decide)

/-- C4 counterexample: the claim reads entry 1 of
`marginal_prob(prob, wires=[2,0])` as the probability of the basis state
`|10⟩` in the `(wire2, wire0)` labelling, i.e. wire2 = 1 and wire0 = 0.  For
the distribution concentrated on wire0 = 1, wire1 = 0, wire2 = 0 the code
puts probability 1 in entry 1, while the state wire2 = 1, wire0 = 0 has
probability 0, so the claimed entry order is wrong. -/
theorem marginal_prob_order_counterexample :
    (marginal_prob [0, 1, 2] c4Prob [2, 0]).getD 1 0 = 1 ∧
      wireEventProb 3 c4Prob [(2, 1), (0, 0)] = 0 ∧
      (marginal_prob [0, 1, 2] c4Prob [2, 0]).getD 1 0 ≠
        wireEventProb 3 c4Prob [(2, 1), (0, 0)] := by
  norm_num [marginal_prob, marginalCore, keepsTo, axisBit, wireEventProb, c4Prob, map_wires,
    order_wires, argsort, insertSorted, generate_basis_states, states_to_binary,
    powers_of_two_desc, List.range_succ]

/-- C4 (amended): for device wires `[0,1,2]` and requested wires `[2,0]`,
`marginal_prob` sums out wire 1 and returns the marginal in the big-endian
order of the requested wires: entry `r` is the joint probability of
wire2 = `r / 2` and wire0 = `r % 2`.  Equivalently, the entry order is
`|00⟩, |10⟩, |01⟩, |11⟩` with respect to the `(wire0, wire2)` labelling
(not the `(wire2, wire0)` labelling). -/
theorem marginal_prob_requested_order (p0 p1 p2 p3 p4 p5 p6 p7 : ℚ) :
    marginal_prob [0, 1, 2] [p0, p1, p2, p3, p4, p5, p6, p7] [2, 0] =
      [wireEventProb 3 [p0, p1, p2, p3, p4, p5, p6, p7] [(2, 0), (0, 0)],
        wireEventProb 3 [p0, p1, p2, p3, p4, p5, p6, p7] [(2, 0), (0, 1)],
        wireEventProb 3 [p0, p1, p2, p3, p4, p5, p6, p7] [(2, 1), (0, 0)],
        wireEventProb 3 [p0, p1, p2, p3, p4, p5, p6, p7] [(2, 1), (0, 1)]] ∧
      marginal_prob [0, 1, 2] [p0, p1, p2, p3, p4, p5, p6, p7] [2, 0] =
        [p0 + p2, p4 + p6, p1 + p3, p5 + p7] := by
  constructor <;>
    simp [marginal_prob, marginalCore, keepsTo, axisBit, wireEventProb, map_wires,
      order_wires, argsort, insertSorted, generate_basis_states, states_to_binary,
      powers_of_two_desc, List.range_succ]

/-- C2: on a two-wire device, for every underlying probability distribution and
every two single-qubit observables `A` and `B` with defined eigenvalues, the
analytic expectation value of `A ⊗ B` on wires `[0, 1]` equals that of
`B ⊗ A` on wires `[1, 0]`. -/
theorem expval_wire_order_invariance (p0 p1 p2 p3 a0 a1 b0 b1 : ℚ) :
    expval_analytic [0, 1] [p0, p1, p2, p3] [⟨0, a0, a1⟩, ⟨1, b0, b1⟩] =
      expval_analytic [0, 1] [p0, p1, p2, p3] [⟨1, b0, b1⟩, ⟨0, a0, a1⟩] := by
  simp [expval_analytic, analytic_probability, marginal_prob, marginalCore, keepsTo, axisBit,
    permute_wires, order_wires, map_wires, argsort, insertSorted, tensor_eigvals, kron,
    generate_basis_states, states_to_binary, powers_of_two_desc, List.range_succ]
  ring

/-- C3: for a non-empty sample buffer and a (non-empty) requested wire subset,
unbinned `estimate_probability` returns a vector of length `2 ^ |wires|` whose
entry at basis index `j` is the relative frequency of `j` among the selected
samples (zero when unobserved, since the count is zero), and whose entries sum
exactly to 1; in binned mode every one of the `num_bins` per-bin columns sums
to 1 whenever `bin_size` divides the number of selected samples. -/
theorem estimate_probability_spec (dev : List Wire) (samples : List (List Bool))
    (w0 : Wire) (ws2 : List Wire) (binSize : Nat)
    (hs : samples ≠ []) (hpos : 0 < binSize) (hdiv : binSize ∣ samples.length) :
    (estimate_probability dev samples (some (w0 :: ws2)) none).length =
        2 ^ (w0 :: ws2).length ∧
      (∀ j, j < 2 ^ (w0 :: ws2).length →
        (estimate_probability dev samples (some (w0 :: ws2)) none).getD j 0 =
          ((sampleIndices samples (map_wires dev (w0 :: ws2))).count j : ℚ) /
            (samples.length : ℚ)) ∧
      (estimate_probability dev samples (some (w0 :: ws2)) none).sum = 1 ∧
      ∀ bin ∈ estimate_probability_binned dev samples (some (w0 :: ws2)) none binSize,
        bin.sum = 1 := by
  have hk : (map_wires dev (w0 :: ws2)).length = (w0 :: ws2).length :=
    List.length_map _ _
  have hslen : (sampleIndices samples (map_wires dev (w0 :: ws2))).length = samples.length :=
    List.length_map _ _
  have hne : sampleIndices samples (map_wires dev (w0 :: ws2)) ≠ [] := by
    intro h
    exact hs (by simpa [sampleIndices] using h)
  have hlt : ∀ i ∈ sampleIndices samples (map_wires dev (w0 :: ws2)),
      i < 2 ^ (w0 :: ws2).length := by
    intro i hi
    have := sampleIndices_lt samples (map_wires dev (w0 :: ws2)) i hi
    rwa [hk] at this
  refine ⟨?_, ?_, ?_, ?_⟩
  · simp [estimate_probability, wiresOrDefault, shotSlice, count_unbinned_samples, hk]
  · intro j hj
    have hj2 : j < 2 ^ (map_wires dev (w0 :: ws2)).length := by rwa [hk]
    simp only [estimate_probability, wiresOrDefault, List.isEmpty_cons, if_neg Bool.false_ne_true,
      shotSlice, count_unbinned_samples]
    rw [getD_map_range _ _ _ hj2, hslen]
  · have h := count_unbinned_samples_sum (sampleIndices samples (map_wires dev (w0 :: ws2)))
      (2 ^ (w0 :: ws2).length) hne hlt
    simpa [estimate_probability, wiresOrDefault, shotSlice, hk] using h
  · intro bin hbin
    have hdiv2 : binSize ∣ (sampleIndices samples (map_wires dev (w0 :: ws2))).length := by
      rwa [hslen]
    have h := count_binned_samples_sum (sampleIndices samples (map_wires dev (w0 :: ws2)))
      (2 ^ (w0 :: ws2).length) binSize hpos hdiv2 hlt
    apply h
    simpa [estimate_probability_binned, wiresOrDefault, shotSlice, hk] using hbin

/-- Witness for C3: two shots on a two-wire device, requesting wire 0,
with bin size 1. -/
theorem estimate_probability_spec_witness :
    (estimate_probability [0, 1] [[true, false], [false, false]] (some [0]) none).sum = 1 :=
  (estimate_probability_spec [0, 1] [[true, false], [false, false]] 0 [] 1
    (by decide) (by decide) (by norm_num)).2.2.1

/-- C10: `probability` and `estimate_probability` treat a `None` wires argument
and an empty wires collection the same as a request for every device wire: the
returned vector is the distribution over the full Device Wire Registry, with
no error and no empty marginal. -/
theorem probability_empty_wires_default (dev : List Wire) (shots : Option Nat)
    (analyticFn : List Wire → List ℚ) (samples : List (List Bool)) :
    probability dev shots analyticFn samples none none =
        probability dev shots analyticFn samples (some dev) none ∧
      probability dev shots analyticFn samples (some []) none =
        probability dev shots analyticFn samples (some dev) none ∧
      estimate_probability dev samples none none =
        estimate_probability dev samples (some dev) none ∧
      estimate_probability dev samples (some []) none =
        estimate_probability dev samples (some dev) none := by
  refine ⟨?_, ?_, ?_, ?_⟩ <;> cases dev <;> cases shots <;> rfl

/-- C5 counterexample: on a finite-shot device executing a circuit that
combines a ClassicalShadow measurement with an expectation measurement, the
error is indeed raised, but `_execute_new` has already applied the circuit
operations and generated samples by then — the device-action trace is not
empty, contradicting the claim that the failure occurs before any device
execution is attempted. -/
theorem shadow_combination_timing_counterexample :
    ((executeNew ⟨1, [0], some 10, none⟩ [MKind.classicalShadow, MKind.expectation]).2).isSome
        = true ∧
      (executeNew ⟨1, [0], some 10, none⟩ [MKind.classicalShadow, MKind.expectation]).1 =
        [DeviceAction.applyOps, DeviceAction.generateSamples] := by
  exact ⟨rfl, rfl⟩

/-- C5 (amended): combining a State, ClassicalShadow, or ShadowExpval
measurement with any other measurement raises an error on both statistics
paths; however the check runs inside the statistics stage, which
`_execute_new` reaches only after applying the circuit operations (and, with
finite shots, sampling) — not before device execution. -/
theorem state_shadow_combination_error (cfg : DeviceCfg) (ms : List MKind)
    (hlen : 1 < ms.length) (m : MKind) (hm : m ∈ ms)
    (hsp : m = MKind.stateM ∨ m = MKind.classicalShadow ∨ m = MKind.shadowExpval) :
    (statisticsNew cfg ms).isSome = true ∧
      (statisticsLegacy cfg ms).isSome = true ∧
      (executeNew cfg ms).1.head? = some DeviceAction.applyOps ∧
      (executeNew cfg ms).2 = statisticsNew cfg ms := by
  have hc1 : (statisticsNewCheck cfg ms.length m).isSome = true := by
    rcases hsp with rfl | rfl | rfl <;> simp [statisticsNewCheck, hlen]
  have hc2 : (statisticsLegacyCheck cfg ms.length m).isSome = true := by
    rcases hsp with rfl | rfl | rfl <;> simp [statisticsLegacyCheck, hlen]
  exact ⟨firstError_isSome_of_mem _ ms m hm hc1,
    firstError_isSome_of_mem _ ms m hm hc2, rfl, rfl⟩

/-- Witness for C5 (amended) at a shadow-plus-expectation circuit. -/
theorem state_shadow_combination_error_witness :
    (statisticsNew ⟨1, [0], some 10, none⟩ [MKind.shadowExpval, MKind.expectation]).isSome
        = true ∧
      (statisticsLegacy ⟨1, [0], some 10, none⟩ [MKind.shadowExpval, MKind.expectation]).isSome
        = true ∧
      (executeNew ⟨1, [0], some 10, none⟩ [MKind.shadowExpval, MKind.expectation]).1.head? =
        some DeviceAction.applyOps ∧
      (executeNew ⟨1, [0], some 10, none⟩ [MKind.shadowExpval, MKind.expectation]).2 =
        statisticsNew ⟨1, [0], some 10, none⟩ [MKind.shadowExpval, MKind.expectation] :=
  state_shadow_combination_error ⟨1, [0], some 10, none⟩
    [MKind.shadowExpval, MKind.expectation] (by decide) MKind.shadowExpval (by decide)
    (by decide)

/-- C6 counterexample: on a device with canonical wire labels and a shot
vector, a VnEntropy (or MutualInfo) measurement raises on the legacy
`statistics` path but raises no error on the `_statistics_new` path, whose
shot-vector check is commented out — so the claim fails for the
new-return-type path. -/
theorem entropy_shot_vector_counterexample :
    (statisticsLegacy ⟨2, [0, 1], some 10, some [(5, 2)]⟩ [MKind.vnEntropy]).isSome = true ∧
      statisticsNew ⟨2, [0, 1], some 10, some [(5, 2)]⟩ [MKind.vnEntropy] = none ∧
      statisticsNew ⟨2, [0, 1], some 10, some [(5, 2)]⟩ [MKind.mutualInfo] = none := by
  exact ⟨rfl, rfl, rfl⟩

/-- C6 (amended): a VnEntropy or MutualInfo measurement raises an error on both
statistics paths whenever the device uses non-canonical wire labels; under a
shot vector only the legacy `statistics` path raises, the `_statistics_new`
path performing no shot-vector check. -/
theorem entropy_error_conditions (cfg : DeviceCfg) (ms : List MKind)
    (m : MKind) (hm : m ∈ ms)
    (hkind : m = MKind.vnEntropy ∨ m = MKind.mutualInfo) :
    (cfg.wireLabels ≠ List.range cfg.numWires →
      (statisticsNew cfg ms).isSome = true ∧ (statisticsLegacy cfg ms).isSome = true) ∧
      (cfg.shotVector ≠ none → (statisticsLegacy cfg ms).isSome = true) := by
  constructor
  · intro hlab
    have hc1 : (statisticsNewCheck cfg ms.length m).isSome = true := by
      rcases hkind with rfl | rfl <;> simp [statisticsNewCheck, hlab]
    have hc2 : (statisticsLegacyCheck cfg ms.length m).isSome = true := by
      rcases hkind with rfl | rfl <;> simp [statisticsLegacyCheck, hlab]
    exact ⟨firstError_isSome_of_mem _ ms m hm hc1,
      firstError_isSome_of_mem _ ms m hm hc2⟩
  · intro hsv
    have hc2 : (statisticsLegacyCheck cfg ms.length m).isSome = true := by
      rcases hkind with rfl | rfl <;>
        by_cases hlab : cfg.wireLabels = List.range cfg.numWires <;>
          simp [statisticsLegacyCheck, hlab, hsv]
    exact firstError_isSome_of_mem _ ms m hm hc2

/-- Witness for C6 (amended) on a device with the non-canonical wire label 7. -/
theorem entropy_error_conditions_witness :
    (statisticsNew ⟨1, [7], none, none⟩ [MKind.vnEntropy]).isSome = true ∧
      (statisticsLegacy ⟨1, [7], none, none⟩ [MKind.vnEntropy]).isSome = true :=
  (entropy_error_conditions ⟨1, [7], none, none⟩ [MKind.vnEntropy] MKind.vnEntropy
    (by decide) (Or.inl rfl)).1 (by decide)

/-- C8: basis-index/bit-vector conversion round-trips.  For every `n ≤ 10` and
index `i < 2 ^ n`, `states_to_binary i n` (MSB = first wire) weighted back by
`2 ^ (n-1..0)` yields `i` again; equivalently
`states_to_binary (binary_to_index bits) n = bits` for all `2 ^ n` basis bit
rows of `generate_basis_states n`. -/
theorem states_to_binary_round_trip (n i : Nat) (hn : n ≤ 10) (hi : i < 2 ^ n) :
    binary_to_index (states_to_binary i n) = i ∧
      ∀ bits ∈ generate_basis_states n, states_to_binary (binary_to_index bits) n = bits := by
  constructor
  · rw [binary_to_index_states_to_binary, Nat.mod_eq_of_lt hi]
  · intro bits hb
    rcases List.mem_map.mp hb with ⟨r, hr, rfl⟩
    have hrlt : r < 2 ^ n := List.mem_range.mp hr
    rw [binary_to_index_states_to_binary, Nat.mod_eq_of_lt hrlt]

/-- Witness for C8 at `n = 3`, `i = 5`. -/
theorem states_to_binary_round_trip_witness :
    binary_to_index (states_to_binary 5 3) = 5 :=
  (states_to_binary_round_trip 3 5 (by decide) (by decide)).1

/-- C7: requesting counts with the all-outcomes flag on `n` wires returns a
mapping with exactly `2 ^ n` keys, each a distinct `n`-bit basis string, whose
values sum to the number of samples counted. -/
theorem counts_all_outcomes_complete (samples : List (List Bool)) (n : Nat)
    (hrow : ∀ s ∈ samples, s.length = n) :
    (samples_to_counts samples n).length = 2 ^ n ∧
      ((samples_to_counts samples n).map Prod.fst).Nodup ∧
      (∀ k ∈ (samples_to_counts samples n).map Prod.fst, k.length = n) ∧
      ((samples_to_counts samples n).map Prod.snd).sum = samples.length := by
  have he := samples_to_counts_eq samples n hrow
  have hfst : (samples_to_counts samples n).map Prod.fst = allBitstrings n := by
    rw [he, List.map_map]
    have hid : (Prod.fst ∘ fun k : List Bool => (k, samples.count k)) = id := rfl
    rw [hid, List.map_id]
  refine ⟨?_, ?_, ?_, ?_⟩
  · rw [he, List.length_map, allBitstrings_length]
  · rw [hfst]
    exact allBitstrings_nodup n
  · intro k hk
    rw [hfst] at hk
    exact allBitstrings_row_length n k hk
  · rw [he, List.map_map]
    have hsnd : (Prod.snd ∘ fun k : List Bool => (k, samples.count k)) =
        fun k => samples.count k := rfl
    rw [hsnd]
    exact sum_counts_over_keys (allBitstrings n) samples
      (fun s hs => mem_allBitstrings s n (hrow s hs)) (allBitstrings_nodup n)

/-- Witness for C7 on three one-wire samples. -/
theorem counts_all_outcomes_complete_witness :
    (samples_to_counts [[true], [false], [true]] 1).length = 2 ^ 1 ∧
      ((samples_to_counts [[true], [false], [true]] 1).map Prod.snd).sum = 3 :=
  ⟨(counts_all_outcomes_complete [[true], [false], [true]] 1 (by decide)).1,
    (counts_all_outcomes_complete [[true], [false], [true]] 1 (by decide)).2.2.2⟩

/-- C9: two classical-shadow executions with the same seed, shot count and
measured wires produce identical `recipes` arrays — whatever circuit or device
state the snapshots run against (`run1`/`run2`) and whatever device registry
is in use — and every recipe entry is a Pauli basis label in `{0, 1, 2}`. -/
theorem classical_shadow_reproducible
    (randValue : Nat → Nat → Nat) (seed T : Nat) (wires : List Wire)
    (dev1 dev2 : List Wire) (run1 run2 : List (Wire × Nat) → List Bool) :
    (classical_shadow randValue seed T dev1 wires run1).2 =
        (classical_shadow randValue seed T dev2 wires run2).2 ∧
      ∀ row ∈ (classical_shadow randValue seed T dev1 wires run1).2,
        ∀ v ∈ row, v < 3 := by
  constructor
  · rfl
  · intro row hrow v hv
    simp only [classical_shadow, shadowRecipes] at hrow
    rcases List.mem_map.mp hrow with ⟨t, _, rfl⟩
    rcases List.mem_map.mp hv with ⟨q, _, rfl⟩
    exact Nat.mod_lt _ (by norm_num)

end PennyLane
